import Mathlib

/- Shallow embedding of the transcript-analytics core of the meeting-analyser
   repository (calendar-gemini-to-slides.py).  Lines of text are modelled as
   Lean strings, Python floats as exact rationals, and Python dictionaries as
   association lists kept in insertion order. -/

namespace MeetingAnalyser

/- Python str.strip: remove leading and trailing whitespace. -/

def isWS (c : Char) : Bool :=
  c = ' ' || c = '\t' || c = '\n' || c = '\r' || c = '\x0b' || c = '\x0c'

def trimChars (cs : List Char) : List Char :=
  ((cs.dropWhile isWS).reverse.dropWhile isWS).reverse

def pyStrip (s : String) : String :=
  ⟨trimChars s.data⟩

/- Counting matches of the regex for a word (maximal runs of word characters),
   as used by len(re.findall of a word pattern, text). -/

def isWordChar (c : Char) : Bool := c.isAlphanum || c = '_'

def runCountAux (P : Char → Bool) : List Char → Bool → Nat
  | [], _ => 0
  | c :: rest, inRun =>
    if P c then (if inRun then runCountAux P rest true else 1 + runCountAux P rest true)
    else runCountAux P rest false

def countWords (s : String) : Nat := runCountAux isWordChar s.data false

/- The timestamp regex: one or two digits, colon, two digits, colon, two
   digits, anchored at the start of the line, anything after.  The captured
   group is parsed as h*3600 + m*60 + s, exactly as parse_timestamp does on
   the matched text. -/

def digitVal (c : Char) : Nat := c.toNat - 48

def tsTail : List Char → Option (Nat × Nat)
  | ':' :: m1 :: m2 :: ':' :: s1 :: s2 :: _ =>
    if m1.isDigit && m2.isDigit && s1.isDigit && s2.isDigit then
      some (10 * digitVal m1 + digitVal m2, 10 * digitVal s1 + digitVal s2)
    else none
  | _ => none

def tsMatch (s : String) : Option Nat :=
  match s.data with
  | d1 :: d2 :: rest =>
    if d1.isDigit then
      if d2.isDigit then
        match tsTail rest with
        | some (m, sec) => some ((10 * digitVal d1 + digitVal d2) * 3600 + m * 60 + sec)
        | none => none
      else
        match tsTail (d2 :: rest) with
        | some (m, sec) => some (digitVal d1 * 3600 + m * 60 + sec)
        | none => none
    else none
  | _ => none

/- The speaker regex: a nonempty run of name characters from the start of the
   line, followed by a colon; the remainder of the line is the second group.
   Both groups are returned raw, exactly as re.match groups are; callers
   strip them where the Python code does. -/

def isNameChar (c : Char) : Bool :=
  c.isAlpha || c = ' ' || c = '.' || c = '\'' || c = '-'

def speakerMatch (s : String) : Option (String × String) :=
  match s.data.dropWhile isNameChar with
  | ':' :: tail =>
    if s.data.takeWhile isNameChar = [] then none
    else some (⟨s.data.takeWhile isNameChar⟩, ⟨tail⟩)
  | _ => none

/- Locating the transcript start: the first line containing the eight
   character marker 00:00:00 as a substring; lines up to and including it are
   discarded. -/

def markerChars : List Char := "00:00:00".data

def startsWithMarker (cs : List Char) : Bool := decide (cs.take 8 = markerChars)

def hasMarker : List Char → Bool
  | [] => false
  | c :: rest => startsWithMarker (c :: rest) || hasMarker rest

def stripMarker (body : List String) : List String :=
  match body.findIdx? (fun l => hasMarker l.data) with
  | some i => body.drop (i + 1)
  | none => body

/- The date-header regex checked against the first line: three letters, a
   space, one or two digits, a comma, a space, four digits. -/

def dateTail : List Char → Bool
  | ',' :: ' ' :: y1 :: y2 :: y3 :: y4 :: _ =>
    y1.isDigit && y2.isDigit && y3.isDigit && y4.isDigit
  | _ => false

def dateHeaderMatch (s : String) : Bool :=
  match s.data with
  | a :: b :: c :: ' ' :: d1 :: rest =>
    a.isAlpha && b.isAlpha && c.isAlpha && d1.isDigit &&
      (match rest with
       | d2 :: rest2 => if d2.isDigit then dateTail rest2 else dateTail (d2 :: rest2)
       | [] => false)
  | _ => false

/- Line preparation in analyze_transcript_and_generate_images: keep nonblank
   lines, drop a two-line date/title header when the first line matches the
   date pattern, then drop everything up to and including the 00:00:00
   marker line. -/

def analyzeBody (input : List String) : List String :=
  let lines := input.filter (fun l => !(pyStrip l == ""))
  let body :=
    match lines with
    | l0 :: _ => if dateHeaderMatch l0 then lines.drop 2 else lines
    | [] => lines
  stripMarker body

/- Speaker-turn parsing, lines 311 to 334 of the source: timestamp lines are
   NOT treated specially here; any nonblank line that does not open a new
   speaker turn is appended to the current utterance. -/

def joinSp : List String → String
  | [] => ""
  | [x] => x
  | x :: rest => x ++ " " ++ joinSp rest

def joinUtt (u : List String) : String := pyStrip (joinSp u)

def emitTurn (n : String) (u : List String) : List (String × String) :=
  if joinUtt u = "" then [] else [(n, joinUtt u)]

def parseTurnsAux : List String → Option (String × List String) → List (String × String)
  | [], none => []
  | [], some (n, u) => if u = [] then [] else emitTurn n u
  | line :: rest, cur =>
    let l := pyStrip line
    if l = "" then parseTurnsAux rest cur
    else
      match speakerMatch l with
      | some s =>
        (match cur with
         | none => []
         | some (n, u) => emitTurn n u) ++ parseTurnsAux rest (some (pyStrip s.1, [pyStrip s.2]))
      | none =>
        match cur with
        | some (n, u) => parseTurnsAux rest (some (n, u ++ [l]))
        | none => parseTurnsAux rest none

def parseTurns (lines : List String) : List (String × String) := parseTurnsAux lines none

/- Closing out a pending turn, as done both at a new speaker line and at the
   end of input (at the end of input the code also checks that the
   continuation buffer is nonempty, which only matters for an empty buffer,
   where the joined text is empty anyway). -/

def flushCur : Option (String × List String) → List (String × String)
  | none => []
  | some (n, u) => emitTurn n u

/- The turn aggregator: per-participant totals (the Counter word_counts) and
   the cumulative trajectories, which snapshot every participant seen so far
   after each turn. -/

structure AggState where
  seen : List String
  tot : String → Nat
  cum : String → List Nat

def aggStep (st : AggState) (t : String × String) : AggState :=
  let w := countWords t.2
  let seen' := if t.1 ∈ st.seen then st.seen else st.seen ++ [t.1]
  let tot' := fun p => if p = t.1 then st.tot p + w else st.tot p
  let cum' := fun p => if p ∈ seen' then st.cum p ++ [tot' p] else st.cum p
  ⟨seen', tot', cum'⟩

def aggAux : List (String × String) → AggState → AggState
  | [], st => st
  | t :: rest, st => aggAux rest (aggStep st t)

def initAgg : AggState := ⟨[], fun _ => 0, fun _ => []⟩

def aggregate (turns : List (String × String)) : AggState := aggAux turns initAgg

def speakers (turns : List (String × String)) : List String := (aggregate turns).seen

def wordTotals (turns : List (String × String)) (p : String) : Nat := (aggregate turns).tot p

def cumulative (turns : List (String × String)) (p : String) : List Nat :=
  (aggregate turns).cum p

def meetingWordCounts (turns : List (String × String)) : List (String × Nat) :=
  (speakers turns).map (fun p => (p, wordTotals turns p))

/- The rate estimator per_participant_wpm.  It rescans the transcript lines:
   a timestamp line updates the current timestamp; a speaker line seen while
   a timestamp is in effect records one event carrying that timestamp and
   the word count of the part of the line after the colon.  Continuation
   lines record nothing. -/

def wpmEventsAux : List String → Option Nat → List (String × Nat × Nat)
  | [], _ => []
  | line :: rest, cur =>
    let l := pyStrip line
    if l = "" then wpmEventsAux rest cur
    else
      match tsMatch l with
      | some ts => wpmEventsAux rest (some ts)
      | none =>
        match speakerMatch l, cur with
        | some sm, some ts =>
          (pyStrip sm.1, ts, countWords (pyStrip sm.2)) :: wpmEventsAux rest cur
        | _, _ => wpmEventsAux rest cur

def wpmEvents (lines : List String) : List (String × Nat × Nat) := wpmEventsAux lines none

def tsListOf (evs : List (String × Nat × Nat)) (p : String) : List Nat :=
  (evs.filter (fun e => e.1 == p)).map (fun e => e.2.1)

def wordsOf (evs : List (String × Nat × Nat)) (p : String) : List Nat :=
  (evs.filter (fun e => e.1 == p)).map (fun e => e.2.2)

def minL : List Nat → Nat
  | [] => 0
  | a :: rest => rest.foldl min a

def maxL : List Nat → Nat
  | [] => 0
  | a :: rest => rest.foldl max a

def wpmValue (evs : List (String × Nat × Nat)) (p : String) : Option ℚ :=
  let ts := tsListOf evs p
  if ts.length < 2 then none
  else if minL ts = maxL ts then none
  else
    let dur : ℚ := ((maxL ts : ℚ) - (minL ts : ℚ)) / 60
    if 0 < dur then
      let w : ℚ := ((wordsOf evs p).sum : ℚ) / dur
      if w ≠ 0 ∧ w < 1000 then some w else none
    else none

def dedupAux : List String → List String → List String
  | [], _ => []
  | a :: rest, seen => if a ∈ seen then dedupAux rest seen else a :: dedupAux rest (a :: seen)

def dedupFirst (l : List String) : List String := dedupAux l []

def wpmNames (evs : List (String × Nat × Nat)) : List String := dedupFirst (evs.map Prod.fst)

def per_participant_wpm (lines : List String) : List (String × ℚ) :=
  let evs := wpmEvents lines
  (wpmNames evs).filterMap (fun p => (wpmValue evs p).map (fun w => (p, w)))

/- Association-list lookup, the semantics of reading a Python dict built with
   string keys. -/

def lookupA {α : Type} : List (String × α) → String → Option α
  | [], _ => none
  | (k, v) :: rest, n => if k = n then some v else lookupA rest n

/- The per-meeting part of main, lines 692 to 716 of the source.  A meeting
   whose raw text has fewer than two lines opening with a timestamp is
   skipped before any analysis; otherwise word-count analysis runs and the
   WPM samples of the meeting (possibly none) are the ones accumulated. -/

def tsLineCount (input : List String) : Nat :=
  (input.filter (fun l => (tsMatch (pyStrip l)).isSome)).length

structure MeetingResult where
  wordAnalysis : Option (List (String × Nat))
  wpmSamples : List (String × ℚ)

def processMeeting (input : List String) : MeetingResult :=
  if tsLineCount input < 2 then ⟨none, []⟩
  else
    let tl := analyzeBody input
    ⟨some (meetingWordCounts (parseTurns tl)), per_participant_wpm tl⟩

/- The cross-meeting accumulator all_wpm_by_participant: a defaultdict of
   lists, appending each meeting's samples in order. -/

def appendSample : List (String × List ℚ) → String → ℚ → List (String × List ℚ)
  | [], n, v => [(n, [v])]
  | (m, l) :: rest, n, v =>
    if m = n then (m, l ++ [v]) :: rest else (m, l) :: appendSample rest n v

def addSamples (acc : List (String × List ℚ)) (s : List (String × ℚ)) :
    List (String × List ℚ) :=
  s.foldl (fun a e => appendSample a e.1 e.2) acc

def accumulateWpm (batch : List (List String)) : List (String × List ℚ) :=
  batch.foldl (fun acc input => addSamples acc (processMeeting input).wpmSamples) []

/- The cross-meeting statistics: keep participants with strictly more than
   five samples; mean and confidence-interval half-width per participant.
   The Student-t critical value and the square root are real-valued library
   calls, taken here as parameters. -/

def filterWpm (acc : List (String × List ℚ)) : List (String × List ℚ) :=
  acc.filter (fun e => decide (5 < e.2.length))

def npMean (l : List ℚ) : ℚ := l.sum / (l.length : ℚ)

def sampleVar (l : List ℚ) : ℚ :=
  ((l.map (fun x => (x - npMean l) ^ 2)).sum) / ((l.length : ℚ) - 1)

def wpm_stats (tcrit : Nat → ℚ) (sqrtf : ℚ → ℚ) (l : List ℚ) : ℚ × ℚ :=
  if 1 < l.length then
    (npMean l, tcrit (l.length - 1) * (sqrtf (sampleVar l) / sqrtf ((l.length : ℚ))))
  else (npMean l, 0)

/- Color assignment: distinct_color_grid builds a grid of ceil(sqrt n) hues
   crossed with two or three lightness bands at saturation 0.7, filled
   lightness-major and hue-minor and cut off at n entries;
   make_global_color_dict zips the roster with those colors. -/

def ceilSqrt (n : Nat) : Nat :=
  (List.range (n + 1)).findIdx (fun k => decide (n ≤ k * k))

def lightnessVals (n : Nat) : List ℚ :=
  if 20 < n then [45/100, 65/100, 8/10] else [1/2, 7/10]

def hlsAux (m1 m2 hue : ℚ) : ℚ :=
  let h := hue - (⌊hue⌋ : ℚ)
  if h < 1/6 then m1 + (m2 - m1) * h * 6
  else if h < 1/2 then m2
  else if h < 2/3 then m1 + (m2 - m1) * (2/3 - h) * 6
  else m1

def hls_to_rgb (h l s : ℚ) : ℚ × ℚ × ℚ :=
  if s = 0 then (l, l, l)
  else
    let m2 := if l ≤ 1/2 then l * (1 + s) else l + s - l * s
    let m1 := 2 * l - m2
    (hlsAux m1 m2 (h + 1/3), hlsAux m1 m2 h, hlsAux m1 m2 (h - 1/3))

def distinct_color_grid (n : Nat) : List (ℚ × ℚ × ℚ) :=
  let k := ceilSqrt n
  (((lightnessVals n).map
      (fun l => (List.range k).map (fun i => hls_to_rgb ((i : ℚ) / (k : ℚ)) l (7/10)))).flatten).take n

def make_global_color_dict (ps : List String) : List (String × (ℚ × ℚ × ℚ)) :=
  ps.zip (distinct_color_grid ps.length)

/- The transcript body of the end-to-end example in the specification. -/

def c2Body : List String :=
  ["00:00:00", "Alice: Hello there friend.", "00:00:10",
   "Bob: Hi Alice, good morning.", "00:01:10", "Alice: Great, thanks."]

/- Small concrete transcripts used to instantiate theorems below. -/

def c3Lines : List String :=
  ["0:00:10", "Alice: one two", "extra words here", "0:01:10", "Alice: three"]

def c10Lines : List String :=
  ["0:00:00", "Alice: one two three four", "0:01:00", "Alice: five"]

def c5Lines : List String :=
  ["0:00:00", "Alice: one two three four", "0:01:00", "Alice: five", "Bob: solo words"]

section Claims

attribute [local semireducible] Rat.mul Rat.inv Rat.add Rat.sub

/- Helper lemmas about the fold-based minimum and maximum. -/

theorem foldl_min_le_foldl_max (l : List Nat) :
    ∀ a b : Nat, a ≤ b → l.foldl min a ≤ l.foldl max b := by
  induction l with
  | nil => intro a b h; exact h
  | cons c rest ih =>
    intro a b h
    exact ih _ _ (le_trans (min_le_left a c) (le_trans h (le_max_left b c)))

theorem minL_le_maxL (l : List Nat) (h : l ≠ []) : minL l ≤ maxL l := by
  cases l with
  | nil => exact absurd rfl h
  | cons a rest => exact foldl_min_le_foldl_max rest a a (le_refl a)

/- Characterisation lemmas for wpmValue. -/

theorem wpmValue_none_of_not_enough (evs : List (String × Nat × Nat)) (p : String)
    (h : ¬(2 ≤ (tsListOf evs p).length ∧ minL (tsListOf evs p) ≠ maxL (tsListOf evs p))) :
    wpmValue evs p = none := by
  unfold wpmValue
  by_cases h1 : (tsListOf evs p).length < 2
  · simp [h1]
  · have h2 : minL (tsListOf evs p) = maxL (tsListOf evs p) := by
      push_neg at h
      exact h (Nat.le_of_not_lt h1)
    simp [h1, h2]

theorem wpmValue_formula (evs : List (String × Nat × Nat)) (p : String)
    (h1 : 2 ≤ (tsListOf evs p).length)
    (h2 : minL (tsListOf evs p) ≠ maxL (tsListOf evs p)) :
    wpmValue evs p =
      (if 0 < ((wordsOf evs p).sum : ℚ) /
            (((maxL (tsListOf evs p) : ℚ) - (minL (tsListOf evs p) : ℚ)) / 60) ∧
          ((wordsOf evs p).sum : ℚ) /
            (((maxL (tsListOf evs p) : ℚ) - (minL (tsListOf evs p) : ℚ)) / 60) < 1000 then
        some (((wordsOf evs p).sum : ℚ) /
          (((maxL (tsListOf evs p) : ℚ) - (minL (tsListOf evs p) : ℚ)) / 60))
      else none) := by
  have hne : tsListOf evs p ≠ [] := by
    intro hnil
    rw [hnil] at h1
    exact absurd h1 (by norm_num)
  have hlt : minL (tsListOf evs p) < maxL (tsListOf evs p) :=
    lt_of_le_of_ne (minL_le_maxL _ hne) h2
  have hdur : (0 : ℚ) < ((maxL (tsListOf evs p) : ℚ) - (minL (tsListOf evs p) : ℚ)) / 60 := by
    apply div_pos
    · rw [sub_pos]
      exact_mod_cast hlt
    · norm_num
  have hw0 : (0 : ℚ) ≤ ((wordsOf evs p).sum : ℚ) /
      (((maxL (tsListOf evs p) : ℚ) - (minL (tsListOf evs p) : ℚ)) / 60) :=
    div_nonneg (Nat.cast_nonneg _) (le_of_lt hdur)
  unfold wpmValue
  rw [if_neg (by omega), if_neg h2, if_pos hdur]
  apply if_congr _ rfl rfl
  constructor
  · rintro ⟨hne0, hlt1000⟩
    exact ⟨lt_of_le_of_ne hw0 (Ne.symm hne0), hlt1000⟩
  · rintro ⟨hpos, hlt1000⟩
    exact ⟨ne_of_gt hpos, hlt1000⟩

theorem wpmValue_bounds (evs : List (String × Nat × Nat)) (p : String) (v : ℚ)
    (h : wpmValue evs p = some v) : 0 < v ∧ v < 1000 := by
  simp only [wpmValue] at h
  split_ifs at h with hlen hmm hdur hcond
  · rcases hcond with ⟨hne0, hlt⟩
    have hv : v = ((wordsOf evs p).sum : ℚ) /
        (((maxL (tsListOf evs p) : ℚ) - (minL (tsListOf evs p) : ℚ)) / 60) :=
      (Option.some.injEq _ _ ▸ h).symm
    have hw0 : (0 : ℚ) ≤ ((wordsOf evs p).sum : ℚ) /
        (((maxL (tsListOf evs p) : ℚ) - (minL (tsListOf evs p) : ℚ)) / 60) :=
      div_nonneg (Nat.cast_nonneg _) (le_of_lt hdur)
    subst hv
    exact ⟨lt_of_le_of_ne hw0 (Ne.symm hne0), hlt⟩

theorem wpmValue_none_of_zero_words (evs : List (String × Nat × Nat)) (p : String)
    (h : (wordsOf evs p).sum = 0) : wpmValue evs p = none := by
  simp only [wpmValue]
  split_ifs with hlen hmm hdur hcond
  · rfl
  · rfl
  · exact absurd (show ((wordsOf evs p).sum : ℚ) /
        (((maxL (tsListOf evs p) : ℚ) - (minL (tsListOf evs p) : ℚ)) / 60) = 0 by
      rw [h]; simp) hcond.1
  · rfl
  · rfl

/- Membership in the deduplicated first-seen name list. -/

theorem mem_dedupAux (a : String) :
    ∀ (l seen : List String), a ∈ dedupAux l seen ↔ a ∈ l ∧ a ∉ seen := by
  intro l
  induction l with
  | nil => intro seen; simp [dedupAux]
  | cons b rest ih =>
    intro seen
    by_cases hb : b ∈ seen
    · simp only [dedupAux, if_pos hb, ih, List.mem_cons]
      constructor
      · rintro ⟨h1, h2⟩; exact ⟨Or.inr h1, h2⟩
      · rintro ⟨h1, h2⟩
        rcases h1 with rfl | h1
        · exact absurd hb h2
        · exact ⟨h1, h2⟩
    · simp only [dedupAux, if_neg hb, List.mem_cons, ih]
      by_cases hab : a = b
      · subst hab; simp [hb]
      · simp [hab]

theorem mem_wpmNames (evs : List (String × Nat × Nat)) (p : String) :
    p ∈ wpmNames evs ↔ p ∈ evs.map Prod.fst := by
  unfold wpmNames dedupFirst
  rw [mem_dedupAux]
  simp

theorem mem_map_fst_of_tsListOf (evs : List (String × Nat × Nat)) (p : String)
    (h : tsListOf evs p ≠ []) : p ∈ evs.map Prod.fst := by
  have hf : evs.filter (fun e => e.1 == p) ≠ [] := by
    intro hnil
    exact h (by simp [tsListOf, hnil])
  rcases List.exists_mem_of_ne_nil _ hf with ⟨e, he⟩
  rcases List.mem_filter.1 he with ⟨hmem, hbeq⟩
  exact List.mem_map.2 ⟨e, hmem, eq_of_beq hbeq⟩

/- Lookup into the filterMap list built by per_participant_wpm. -/

theorem lookupA_ppw_some (evs : List (String × Nat × Nat)) (p : String) (w : ℚ) :
    ∀ names : List String, p ∈ names → wpmValue evs p = some w →
      lookupA (names.filterMap (fun q => (wpmValue evs q).map (fun x => (q, x)))) p = some w := by
  intro names
  induction names with
  | nil => intro hp; exact absurd hp (List.not_mem_nil p)
  | cons q rest ih =>
    intro hp hw
    rw [List.filterMap_cons]
    by_cases hqp : q = p
    · subst hqp
      rw [hw]
      simp [lookupA]
    · have hpr : p ∈ rest := by
        rcases List.mem_cons.1 hp with h | h
        · exact absurd h.symm hqp
        · exact h
      cases hqv : wpmValue evs q with
      | none =>
        simp only [hqv, Option.map_none']
        exact ih hpr hw
      | some x =>
        simp only [hqv, Option.map_some', lookupA, if_neg hqp]
        exact ih hpr hw

theorem lookupA_ppw_none (evs : List (String × Nat × Nat)) (p : String)
    (hw : wpmValue evs p = none) :
    ∀ names : List String,
      lookupA (names.filterMap (fun q => (wpmValue evs q).map (fun x => (q, x)))) p = none := by
  intro names
  induction names with
  | nil => rfl
  | cons q rest ih =>
    rw [List.filterMap_cons]
    cases hqv : wpmValue evs q with
    | none => simpa [hqv] using ih
    | some x =>
      have hqp : q ≠ p := by
        intro h; subst h; rw [hw] at hqv; exact Option.noConfusion hqv
      simpa [hqv, lookupA, if_neg hqp] using ih

theorem lookupA_ppw_inv (evs : List (String × Nat × Nat)) (p : String) (v : ℚ) :
    ∀ names : List String,
      lookupA (names.filterMap (fun q => (wpmValue evs q).map (fun x => (q, x)))) p = some v →
      wpmValue evs p = some v := by
  intro names
  induction names with
  | nil => intro h; exact Option.noConfusion h
  | cons q rest ih =>
    rw [List.filterMap_cons]
    cases hqv : wpmValue evs q with
    | none => simpa [hqv] using ih
    | some x =>
      simp only [hqv, Option.map_some', lookupA]
      by_cases hqp : q = p
      · subst hqp
        rw [if_pos rfl, hqv]
        intro h
        exact h
      · rw [if_neg hqp]
        exact ih

theorem lookupA_ppw_eq_of_mem (evs : List (String × Nat × Nat)) (p : String)
    (names : List String) (hp : p ∈ names) :
    lookupA (names.filterMap (fun q => (wpmValue evs q).map (fun x => (q, x)))) p =
      wpmValue evs p := by
  cases hw : wpmValue evs p with
  | none => exact lookupA_ppw_none evs p hw names
  | some w => exact lookupA_ppw_some evs p w names hp hw

theorem per_participant_wpm_lookup (lines : List String) (p : String) :
    lookupA (per_participant_wpm lines) p = some v → wpmValue (wpmEvents lines) p = some v := by
  intro h
  exact lookupA_ppw_inv (wpmEvents lines) p v (wpmNames (wpmEvents lines)) h

/-- C1: evaluation at the failing input.  A roster of seven distinct names
yields a grid of only two lightness bands times three hues, so the color
dictionary covers just the first six names and the seventh gets no color,
contradicting the claim (and the docstring of distinct_color_grid) that all
N names are assigned a color. -/
theorem C1_failing_eval :
    (["A", "B", "C", "D", "E", "F", "G"] : List String).Nodup ∧
    (["A", "B", "C", "D", "E", "F", "G"] : List String).length = 7 ∧
    (make_global_color_dict ["A", "B", "C", "D", "E", "F", "G"]).length = 6 ∧
    lookupA (make_global_color_dict ["A", "B", "C", "D", "E", "F", "G"]) "G" = none := by
  decide

/-- C2 (counterexample): on the exact transcript body lines of the claim the
pipeline gives Alice a total of 8 words rather than 5, Bob 7 rather than 4,
and emits no WPM sample for Alice. -/
theorem C2_counterexample :
    wordTotals (parseTurns (stripMarker c2Body)) "Alice" ≠ 5 ∧
    wordTotals (parseTurns (stripMarker c2Body)) "Bob" ≠ 4 ∧
    lookupA (per_participant_wpm (stripMarker c2Body)) "Alice" = none := by
  decide

/-- C2 (amended): on those transcript body lines the pipeline produces the
three turns in order with the timestamp-only lines absorbed into the
preceding utterances, word counts Alice = 8 and Bob = 7, and no WPM samples
at all: the 00:00:00 marker line is consumed as the transcript boundary, so
the first speaker line carries no timestamp and each participant ends up
with a single tagged timestamp. -/
theorem C2_amended_eval :
    parseTurns (stripMarker c2Body) =
      [("Alice", "Hello there friend. 00:00:10"),
       ("Bob", "Hi Alice, good morning. 00:01:10"),
       ("Alice", "Great, thanks.")] ∧
    wordTotals (parseTurns (stripMarker c2Body)) "Alice" = 8 ∧
    wordTotals (parseTurns (stripMarker c2Body)) "Bob" = 7 ∧
    per_participant_wpm (stripMarker c2Body) = [] := by
  decide

/-- C3 (counterexample): on this transcript, Alice has two tagged timestamps
10 and 70 seconds, but the emitted WPM is 3: only the opening fragments of
the two tagged speaker lines are counted (2 + 1 words), while the claim
formula, counting all turn text including the continuation line, demands
9 words over the same one-minute span, i.e. a WPM of 9. -/
theorem C3_counterexample :
    lookupA (per_participant_wpm c3Lines) "Alice" = some 3 ∧
    wordTotals (parseTurns c3Lines) "Alice" = 9 ∧
    tsListOf (wpmEvents c3Lines) "Alice" = [10, 70] ∧
    (3 : ℚ) ≠ (9 : ℚ) / (((70 : ℚ) - 10) / 60) := by
  refine ⟨by decide, by decide, by decide, by decide⟩

/-- C3 (amended): for every participant with at least two distinct tagged
timestamps, the emitted WPM equals the sum of the word counts of the opening
fragments of their timestamp-tagged speaker lines divided by the elapsed
span in minutes, provided that value lies strictly between 0 and 1000
(otherwise no sample); with fewer than two distinct tagged timestamps no
sample is emitted.  Continuation lines and speaker lines seen before any
timestamp contribute nothing. -/
theorem C3_rate_formula (lines : List String) (p : String) :
    (2 ≤ (tsListOf (wpmEvents lines) p).length ∧
        minL (tsListOf (wpmEvents lines) p) ≠ maxL (tsListOf (wpmEvents lines) p) →
      lookupA (per_participant_wpm lines) p =
        (if 0 < ((wordsOf (wpmEvents lines) p).sum : ℚ) /
              (((maxL (tsListOf (wpmEvents lines) p) : ℚ) -
                (minL (tsListOf (wpmEvents lines) p) : ℚ)) / 60) ∧
            ((wordsOf (wpmEvents lines) p).sum : ℚ) /
              (((maxL (tsListOf (wpmEvents lines) p) : ℚ) -
                (minL (tsListOf (wpmEvents lines) p) : ℚ)) / 60) < 1000 then
          some (((wordsOf (wpmEvents lines) p).sum : ℚ) /
            (((maxL (tsListOf (wpmEvents lines) p) : ℚ) -
              (minL (tsListOf (wpmEvents lines) p) : ℚ)) / 60))
        else none)) ∧
    (¬(2 ≤ (tsListOf (wpmEvents lines) p).length ∧
        minL (tsListOf (wpmEvents lines) p) ≠ maxL (tsListOf (wpmEvents lines) p)) →
      lookupA (per_participant_wpm lines) p = none) := by
  constructor
  · rintro ⟨h1, h2⟩
    have hne : tsListOf (wpmEvents lines) p ≠ [] := by
      intro hnil
      rw [hnil] at h1
      exact absurd h1 (by norm_num)
    have hp : p ∈ wpmNames (wpmEvents lines) :=
      (mem_wpmNames _ _).2 (mem_map_fst_of_tsListOf _ _ hne)
    have heq : lookupA (per_participant_wpm lines) p = wpmValue (wpmEvents lines) p :=
      lookupA_ppw_eq_of_mem (wpmEvents lines) p _ hp
    rw [heq]
    exact wpmValue_formula _ _ h1 h2
  · intro h
    exact lookupA_ppw_none _ _ (wpmValue_none_of_not_enough _ _ h) _

/-- C3 witness: the amended theorem applied at the counterexample transcript. -/
theorem C3_witness :
    (2 ≤ (tsListOf (wpmEvents c3Lines) "Alice").length ∧
        minL (tsListOf (wpmEvents c3Lines) "Alice") ≠
          maxL (tsListOf (wpmEvents c3Lines) "Alice")) ∧
    lookupA (per_participant_wpm c3Lines) "Alice" =
      (if 0 < ((wordsOf (wpmEvents c3Lines) "Alice").sum : ℚ) /
            (((maxL (tsListOf (wpmEvents c3Lines) "Alice") : ℚ) -
              (minL (tsListOf (wpmEvents c3Lines) "Alice") : ℚ)) / 60) ∧
          ((wordsOf (wpmEvents c3Lines) "Alice").sum : ℚ) /
            (((maxL (tsListOf (wpmEvents c3Lines) "Alice") : ℚ) -
              (minL (tsListOf (wpmEvents c3Lines) "Alice") : ℚ)) / 60) < 1000 then
        some (((wordsOf (wpmEvents c3Lines) "Alice").sum : ℚ) /
          (((maxL (tsListOf (wpmEvents c3Lines) "Alice") : ℚ) -
            (minL (tsListOf (wpmEvents c3Lines) "Alice") : ℚ)) / 60))
      else none) :=
  ⟨by decide, (C3_rate_formula c3Lines "Alice").1 (by decide)⟩

/-- C10: every WPM sample the rate estimator emits is strictly positive and
strictly below 1000; in particular a participant whose counted words sum to
zero yields no sample at all, dropped by the same guard as the outliers. -/
theorem C10_sample_positivity :
    (∀ (lines : List String) (p : String) (v : ℚ),
        lookupA (per_participant_wpm lines) p = some v → 0 < v ∧ v < 1000) ∧
    (∀ (lines : List String) (p : String),
        (wordsOf (wpmEvents lines) p).sum = 0 →
        lookupA (per_participant_wpm lines) p = none) := by
  constructor
  · intro lines p v h
    exact wpmValue_bounds _ _ _ (per_participant_wpm_lookup lines p h)
  · intro lines p h
    exact lookupA_ppw_none _ _ (wpmValue_none_of_zero_words _ _ h) _

/-- C10 witness: on a concrete transcript Alice's sample is 5 WPM, and the
theorem yields its bounds. -/
theorem C10_witness :
    lookupA (per_participant_wpm c10Lines) "Alice" = some 5 ∧
    (0 < (5 : ℚ) ∧ (5 : ℚ) < 1000) :=
  ⟨by decide, C10_sample_positivity.1 c10Lines "Alice" 5 (by decide)⟩

/- Support lemmas for the cross-meeting accumulator. -/

theorem lookupA_mem {α : Type} (p : String) (l : α) :
    ∀ acc : List (String × α), lookupA acc p = some l → (p, l) ∈ acc := by
  intro acc
  induction acc with
  | nil => intro h; exact Option.noConfusion h
  | cons e rest ih =>
    obtain ⟨k, v⟩ := e
    simp only [lookupA]
    by_cases hk : k = p
    · rw [if_pos hk]
      intro h
      have hv : v = l := Option.some.inj h
      subst hv; subst hk
      exact List.mem_cons_self _ _
    · rw [if_neg hk]
      intro h
      exact List.mem_cons_of_mem _ (ih h)

theorem mem_ppw_bound (lines : List String) (p : String) (v : ℚ)
    (h : (p, v) ∈ per_participant_wpm lines) : 0 < v ∧ v < 1000 := by
  have h' : (p, v) ∈ (wpmNames (wpmEvents lines)).filterMap
      (fun q => (wpmValue (wpmEvents lines) q).map (fun x => (q, x))) := h
  rcases List.mem_filterMap.1 h' with ⟨q, _, hmap⟩
  rcases Option.map_eq_some'.1 hmap with ⟨w, hw, heq⟩
  have hq : q = p := congrArg Prod.fst heq
  have hwv : w = v := congrArg Prod.snd heq
  subst hq; subst hwv
  exact wpmValue_bounds _ _ _ hw

theorem appendSample_bound (n : String) (v0 : ℚ) (hv : v0 < 1000) :
    ∀ acc : List (String × List ℚ),
      (∀ e ∈ acc, ∀ v ∈ e.2, v < 1000) →
      ∀ e ∈ appendSample acc n v0, ∀ v ∈ e.2, v < 1000 := by
  intro acc
  induction acc with
  | nil =>
    intro _ e he v hvmem
    simp only [appendSample] at he
    rcases List.mem_singleton.1 he with rfl
    rcases List.mem_singleton.1 hvmem with rfl
    exact hv
  | cons e0 rest ih =>
    obtain ⟨m, l0⟩ := e0
    intro hacc e he v hvmem
    simp only [appendSample] at he
    by_cases hmn : m = n
    · rw [if_pos hmn] at he
      rcases List.mem_cons.1 he with rfl | he'
      · rcases List.mem_append.1 hvmem with h | h
        · exact hacc (m, l0) (List.mem_cons_self _ _) v h
        · rcases List.mem_singleton.1 h with rfl
          exact hv
      · exact hacc e (List.mem_cons_of_mem _ he') v hvmem
    · rw [if_neg hmn] at he
      rcases List.mem_cons.1 he with rfl | he'
      · exact hacc (m, l0) (List.mem_cons_self _ _) v hvmem
      · exact ih (fun e'' he'' v'' hv'' => hacc e'' (List.mem_cons_of_mem _ he'') v'' hv'')
          e he' v hvmem

theorem addSamples_bound :
    ∀ (s : List (String × ℚ)) (acc : List (String × List ℚ)),
      (∀ e ∈ acc, ∀ v ∈ e.2, v < 1000) →
      (∀ e ∈ s, e.2 < 1000) →
      ∀ e ∈ addSamples acc s, ∀ v ∈ e.2, v < 1000 := by
  intro s
  induction s with
  | nil => intro acc hacc _ e he; exact hacc e he
  | cons e0 s' ih =>
    intro acc hacc hs e he v hv
    have hstep : addSamples acc (e0 :: s') = addSamples (appendSample acc e0.1 e0.2) s' := by
      simp [addSamples]
    rw [hstep] at he
    exact ih (appendSample acc e0.1 e0.2)
      (appendSample_bound e0.1 e0.2 (hs e0 (List.mem_cons_self _ _)) acc hacc)
      (fun e' he' => hs e' (List.mem_cons_of_mem _ he')) e he v hv

theorem processMeeting_samples_bound (input : List String) :
    ∀ e ∈ (processMeeting input).wpmSamples, e.2 < 1000 := by
  unfold processMeeting
  split_ifs with h
  · intro e he
    exact absurd he (List.not_mem_nil e)
  · intro e he
    obtain ⟨p, v⟩ := e
    exact (mem_ppw_bound _ p v he).2

theorem accumulate_bound_aux :
    ∀ (batch : List (List String)) (acc : List (String × List ℚ)),
      (∀ e ∈ acc, ∀ v ∈ e.2, v < 1000) →
      ∀ e ∈ batch.foldl (fun a input => addSamples a (processMeeting input).wpmSamples) acc,
        ∀ v ∈ e.2, v < 1000 := by
  intro batch
  induction batch with
  | nil => intro acc hacc e he; exact hacc e he
  | cons input batch' ih =>
    intro acc hacc e he
    rw [List.foldl_cons] at he
    exact ih (addSamples acc (processMeeting input).wpmSamples)
      (addSamples_bound _ acc hacc (processMeeting_samples_bound input)) e he

/-- C7: no WPM sample at or above 1000 is ever emitted, neither into a
meeting's sample set nor into the cross-meeting accumulator. -/
theorem C7_outlier_guard :
    (∀ (lines : List String) (p : String) (v : ℚ),
        lookupA (per_participant_wpm lines) p = some v → v < 1000) ∧
    (∀ (batch : List (List String)) (p : String) (l : List ℚ) (v : ℚ),
        lookupA (accumulateWpm batch) p = some l → v ∈ l → v < 1000) := by
  constructor
  · intro lines p v h
    exact (wpmValue_bounds _ _ _ (per_participant_wpm_lookup lines p h)).2
  · intro batch p l v hl hm
    have hmem := lookupA_mem p l _ hl
    exact accumulate_bound_aux batch [] (by simp) (p, l) hmem v hm

/-- C7 witness: the concrete sample of 5 WPM is below the cutoff. -/
theorem C7_witness :
    lookupA (per_participant_wpm c10Lines) "Alice" = some 5 ∧ (5 : ℚ) < 1000 :=
  ⟨by decide, C7_outlier_guard.1 c10Lines "Alice" 5 (by decide)⟩

/- Support lemmas for the minimum-sample filter. -/

theorem lookupA_eq_none_of_not_mem {α : Type} (p : String) :
    ∀ l : List (String × α), p ∉ l.map Prod.fst → lookupA l p = none := by
  intro l
  induction l with
  | nil => intro _; rfl
  | cons e rest ih =>
    obtain ⟨k, v⟩ := e
    intro h
    have hk : k ≠ p := by
      intro hkp
      exact h (by simp [hkp])
    simp only [lookupA, if_neg hk]
    exact ih (fun hm => h (by simp; right; simpa using hm))

theorem filterWpm_keys_subset (acc : List (String × List ℚ)) :
    (filterWpm acc).map Prod.fst ⊆ acc.map Prod.fst :=
  List.map_subset _ (fun _ ha => List.mem_of_mem_filter ha)

theorem lookupA_filterWpm_prop (name : String) (l : List ℚ) :
    ∀ acc : List (String × List ℚ),
      lookupA (filterWpm acc) name = some l → 5 < l.length := by
  intro acc
  induction acc with
  | nil => intro h; exact Option.noConfusion h
  | cons e rest ih =>
    obtain ⟨k, v⟩ := e
    by_cases hp : 5 < v.length
    · have : filterWpm ((k, v) :: rest) = (k, v) :: filterWpm rest := by
        simp [filterWpm, List.filter_cons, hp]
      rw [this]
      simp only [lookupA]
      by_cases hk : k = name
      · rw [if_pos hk]
        intro h
        have : v = l := Option.some.inj h
        subst this
        exact hp
      · rw [if_neg hk]
        exact ih
    · have : filterWpm ((k, v) :: rest) = filterWpm rest := by
        simp [filterWpm, List.filter_cons, hp]
      rw [this]
      exact ih

/-- C6: the cross-meeting summary contains a participant exactly when that
participant has strictly more than five accumulated samples; a participant
with five or fewer samples is excluded no matter what the samples are. -/
theorem C6_min_sample_filter (acc : List (String × List ℚ)) (name : String)
    (hnd : (acc.map Prod.fst).Nodup) :
    (lookupA (filterWpm acc) name).isSome ↔
      ∃ l, lookupA acc name = some l ∧ 5 < l.length := by
  induction acc with
  | nil => simp [filterWpm, lookupA]
  | cons e rest ih =>
    obtain ⟨k, v⟩ := e
    have hnd2 : k ∉ rest.map Prod.fst ∧ (rest.map Prod.fst).Nodup := by
      rw [List.map_cons] at hnd
      exact ⟨(List.nodup_cons.1 hnd).1, (List.nodup_cons.1 hnd).2⟩
    have hk_not : k ∉ rest.map Prod.fst := hnd2.1
    have hnd' : (rest.map Prod.fst).Nodup := hnd2.2
    by_cases hk : k = name
    · subst hk
      by_cases hp : 5 < v.length
      · have hf : filterWpm ((k, v) :: rest) = (k, v) :: filterWpm rest := by
          simp [filterWpm, List.filter_cons, hp]
        rw [hf]
        simp only [lookupA, if_pos rfl]
        simp [hp]
      · have hf : filterWpm ((k, v) :: rest) = filterWpm rest := by
          simp [filterWpm, List.filter_cons, hp]
        rw [hf]
        have hnone : lookupA (filterWpm rest) k = none :=
          lookupA_eq_none_of_not_mem k _ (fun hm => hk_not (filterWpm_keys_subset rest hm))
        rw [hnone]
        simp only [lookupA, if_pos rfl, Option.isSome_none, Bool.false_eq_true, false_iff]
        rintro ⟨l, hl, hlen⟩
        have : v = l := Option.some.inj hl
        subst this
        exact hp hlen
    · have hstep : lookupA ((k, v) :: rest) name = lookupA rest name := by
        simp [lookupA, if_neg hk]
      by_cases hp : 5 < v.length
      · have hf : filterWpm ((k, v) :: rest) = (k, v) :: filterWpm rest := by
          simp [filterWpm, List.filter_cons, hp]
        rw [hf, hstep]
        simp only [lookupA, if_neg hk]
        exact ih hnd'
      · have hf : filterWpm ((k, v) :: rest) = filterWpm rest := by
          simp [filterWpm, List.filter_cons, hp]
        rw [hf, hstep]
        exact ih hnd'

/-- C6 witness: a participant with six samples is kept, one with a single
huge sample is dropped; the theorem is applied to the dropped participant. -/
theorem C6_witness :
    (([("A", List.replicate 6 (100 : ℚ)), ("B", [(2000 : ℚ)])].map Prod.fst).Nodup) ∧
    ((lookupA (filterWpm [("A", List.replicate 6 (100 : ℚ)), ("B", [(2000 : ℚ)])]) "B").isSome ↔
      ∃ l, lookupA [("A", List.replicate 6 (100 : ℚ)), ("B", [(2000 : ℚ)])] "B" = some l ∧
        5 < l.length) :=
  ⟨by decide, C6_min_sample_filter _ "B" (by decide)⟩

/-- C8: for every participant retained by the minimum-sample filter, the
reported mean is the arithmetic mean of the samples and the confidence
interval half-width is the 0.975 Student-t critical value at n minus 1
degrees of freedom times the sample standard deviation with one delta
degree of freedom divided by the square root of n; a single-sample list
would get half-width zero. -/
theorem C8_mean_ci (tcrit : Nat → ℚ) (sqrtf : ℚ → ℚ)
    (acc : List (String × List ℚ)) (name : String) (l : List ℚ)
    (h : lookupA (filterWpm acc) name = some l) :
    (wpm_stats tcrit sqrtf l).1 = l.sum / (l.length : ℚ) ∧
    (wpm_stats tcrit sqrtf l).2 =
      tcrit (l.length - 1) *
        (sqrtf ((l.map (fun x => (x - l.sum / (l.length : ℚ)) ^ 2)).sum /
            ((l.length : ℚ) - 1)) /
          sqrtf ((l.length : ℚ))) ∧
    (∀ l' : List ℚ, l'.length = 1 → (wpm_stats tcrit sqrtf l').2 = 0) := by
  have h5 : 5 < l.length := lookupA_filterWpm_prop name l acc h
  have h1 : 1 < l.length := by omega
  refine ⟨?_, ?_, ?_⟩
  · simp [wpm_stats, if_pos h1, npMean]
  · simp [wpm_stats, if_pos h1, npMean, sampleVar]
  · intro l' hl'
    simp [wpm_stats, hl']

/-- C8 witness: the theorem applied to a retained six-sample participant
with placeholder critical-value and square-root functions. -/
theorem C8_witness :
    lookupA (filterWpm [("A", [(10 : ℚ), 20, 30, 40, 50, 60])]) "A" =
      some [(10 : ℚ), 20, 30, 40, 50, 60] ∧
    (wpm_stats (fun _ => 2) (fun q => q) [(10 : ℚ), 20, 30, 40, 50, 60]).1 =
      ([(10 : ℚ), 20, 30, 40, 50, 60].sum / (([(10 : ℚ), 20, 30, 40, 50, 60].length : ℚ))) :=
  ⟨by decide,
    (C8_mean_ci (fun _ => 2) (fun q => q) [("A", [(10 : ℚ), 20, 30, 40, 50, 60])] "A"
      [(10 : ℚ), 20, 30, 40, 50, 60] (by decide)).1⟩

/-- C5 (counterexample): a meeting whose transcript has no timestamp-bearing
line at all is skipped entirely: the word-count analysis, which would have
produced a two-word total for Alice, is not produced either, contradicting
the claim that only the rate analysis is skipped for such a meeting. -/
theorem C5_counterexample :
    tsLineCount ["Alice: hello world"] < 2 ∧
    meetingWordCounts (parseTurns ["Alice: hello world"]) = [("Alice", 2)] ∧
    (processMeeting ["Alice: hello world"]).wordAnalysis = none ∧
    (processMeeting ["Alice: hello world"]).wpmSamples = [] := by
  exact ⟨by decide, by decide, by decide, by decide⟩

/-- C5 (amended): a meeting with fewer than two timestamp-bearing lines is
skipped entirely, word-count analysis included; for a meeting that passes
this check the word-count analysis is always produced, and a participant
lacking two distinct tagged timestamps is excluded from the rate samples
only. -/
theorem C5_skip_policy (input : List String) :
    (tsLineCount input < 2 →
      (processMeeting input).wordAnalysis = none ∧
      (processMeeting input).wpmSamples = []) ∧
    (2 ≤ tsLineCount input →
      (processMeeting input).wordAnalysis =
        some (meetingWordCounts (parseTurns (analyzeBody input))) ∧
      ∀ p, ¬(2 ≤ (tsListOf (wpmEvents (analyzeBody input)) p).length ∧
              minL (tsListOf (wpmEvents (analyzeBody input)) p) ≠
                maxL (tsListOf (wpmEvents (analyzeBody input)) p)) →
          lookupA (processMeeting input).wpmSamples p = none) := by
  constructor
  · intro h
    constructor
    · simp [processMeeting, if_pos h]
    · simp [processMeeting, if_pos h]
  · intro h
    have hn : ¬ tsLineCount input < 2 := by omega
    constructor
    · simp [processMeeting, if_neg hn]
    · intro p hp
      have hs : (processMeeting input).wpmSamples = per_participant_wpm (analyzeBody input) := by
        simp [processMeeting, if_neg hn]
      rw [hs]
      exact lookupA_ppw_none _ _ (wpmValue_none_of_not_enough _ _ hp) _

/-- C5 witness: a meeting with two timestamp lines is processed, and Bob,
who speaks only once after the second timestamp, gets no rate sample even
though his words are counted. -/
theorem C5_witness :
    2 ≤ tsLineCount c5Lines ∧
    lookupA (processMeeting c5Lines).wpmSamples "Bob" = none :=
  ⟨by decide, ((C5_skip_policy c5Lines).2 (by decide)).2 "Bob" (by decide)⟩

/- Support lemma for the cumulative trajectories: processing a turn list
   from any aggregator state appends one snapshot per turn to participant p
   starting at the turn where p first appears (immediately, when p is
   already in the seen set). -/

theorem aggAux_cum_length :
    ∀ (ts : List (String × String)) (st : AggState) (p : String),
      ((aggAux ts st).cum p).length =
        (st.cum p).length +
          (if p ∈ st.seen then ts.length
           else ts.length - ts.findIdx (fun t => t.1 == p)) := by
  intro ts
  induction ts with
  | nil =>
    intro st p
    simp [aggAux]
  | cons t rest ih =>
    intro st p
    have hstep : aggAux (t :: rest) st = aggAux rest (aggStep st t) := rfl
    rw [hstep, ih]
    have hseen : (aggStep st t).seen =
        if t.1 ∈ st.seen then st.seen else st.seen ++ [t.1] := rfl
    have hcum : (aggStep st t).cum p =
        if p ∈ (aggStep st t).seen then st.cum p ++ [(aggStep st t).tot p]
        else st.cum p := rfl
    by_cases hp : p ∈ st.seen
    · have hp' : p ∈ (aggStep st t).seen := by
        rw [hseen]
        split_ifs with h
        · exact hp
        · exact List.mem_append_left _ hp
      rw [if_pos hp', if_pos hp, hcum, if_pos hp']
      simp only [List.length_append, List.length_cons, List.length_nil, List.length_singleton]
      omega
    · by_cases heq : t.1 = p
      · subst heq
        have hp' : t.1 ∈ (aggStep st t).seen := by
          rw [hseen, if_neg hp]
          exact List.mem_append_right _ (List.mem_singleton.2 rfl)
        rw [if_pos hp', if_neg hp, hcum, if_pos hp']
        have hfi : (t :: rest).findIdx (fun x => x.1 == t.1) = 0 := by
          simp [List.findIdx_cons]
        rw [hfi]
        simp only [List.length_append, List.length_cons, List.length_nil]
        omega
      · have hp' : p ∉ (aggStep st t).seen := by
          rw [hseen]
          split_ifs with h
          · exact hp
          · intro hm
            rcases List.mem_append.1 hm with hm | hm
            · exact hp hm
            · exact heq (List.mem_singleton.1 hm).symm
        rw [if_neg hp', if_neg hp, hcum, if_neg hp']
        have hb : (t.1 == p) = false := beq_eq_false_iff_ne.2 heq
        have hfi : (t :: rest).findIdx (fun x => x.1 == p) =
            rest.findIdx (fun x => x.1 == p) + 1 := by
          simp only [List.findIdx_cons, hb, cond_false]
        rw [hfi]
        simp only [List.length_cons]
        omega

/-- C4 (counterexample): for the two parsed turns Alice then Bob, the
cumulative sequence of Alice has two entries but that of Bob only one, so
the sequences do not all have length equal to the total turn count. -/
theorem C4_counterexample :
    (parseTurns ["Alice: a", "Bob: b c"]).length = 2 ∧
    (cumulative (parseTurns ["Alice: a", "Bob: b c"]) "Alice").length = 2 ∧
    (cumulative (parseTurns ["Alice: a", "Bob: b c"]) "Bob").length = 1 := by
  exact ⟨by decide, by decide, by decide⟩

/-- C4 (amended): each participant's cumulative sequence has one entry per
turn from that participant's first turn onward: its length is the total
turn count minus the index of the turn where the participant first speaks.
In particular a participant whose first turn is not the meeting's first turn
has a strictly shorter sequence. -/
theorem C4_trajectory_length (turns : List (String × String)) (p : String)
    (_hp : p ∈ speakers turns) :
    (cumulative turns p).length =
      turns.length - turns.findIdx (fun t => t.1 == p) := by
  have h := aggAux_cum_length turns initAgg p
  simpa [cumulative, aggregate, initAgg] using h

/-- C4 witness: the amended theorem applied to the late-joining Bob. -/
theorem C4_witness :
    "Bob" ∈ speakers (parseTurns ["Alice: a", "Bob: b c"]) ∧
    (cumulative (parseTurns ["Alice: a", "Bob: b c"]) "Bob").length =
      (parseTurns ["Alice: a", "Bob: b c"]).length -
        (parseTurns ["Alice: a", "Bob: b c"]).findIdx (fun t => t.1 == "Bob") :=
  ⟨by decide, C4_trajectory_length _ "Bob" (by decide)⟩

/- Support lemmas: stripping is idempotent. -/

theorem dropWhile_suffix_ex {α : Type} (p : α → Bool) :
    ∀ l : List α, ∃ t, t ++ l.dropWhile p = l := by
  intro l
  induction l with
  | nil => exact ⟨[], rfl⟩
  | cons a rest ih =>
    by_cases h : p a
    · rcases ih with ⟨t, ht⟩
      exact ⟨a :: t, by rw [List.dropWhile_cons_of_pos h, List.cons_append, ht]⟩
    · exact ⟨[], by rw [List.dropWhile_cons_of_neg h, List.nil_append]⟩

theorem dropWhile_head_false {α : Type} {p : α → Bool} {l : List α} {a : α} {rest : List α}
    (h : l.dropWhile p = a :: rest) : p a = false := by
  have hh := List.head?_dropWhile_not p l
  rw [h] at hh
  simpa using hh

theorem trim_no_leading (cs : List Char) :
    (trimChars cs).dropWhile isWS = trimChars cs := by
  unfold trimChars
  rcases dropWhile_suffix_ex isWS (cs.dropWhile isWS).reverse with ⟨t, ht⟩
  cases hrr : ((cs.dropWhile isWS).reverse.dropWhile isWS).reverse with
  | nil => rfl
  | cons a rest =>
    have hd : cs.dropWhile isWS = a :: (rest ++ t.reverse) := by
      have h2 := congrArg List.reverse ht
      rw [List.reverse_append, List.reverse_reverse] at h2
      rw [hrr] at h2
      rw [← h2, List.cons_append]
    have hfa : isWS a = false := dropWhile_head_false hd
    exact List.dropWhile_cons_of_neg (by simp [hfa])

theorem trim_no_trailing (cs : List Char) :
    (trimChars cs).reverse.dropWhile isWS = (trimChars cs).reverse := by
  unfold trimChars
  rw [List.reverse_reverse]
  cases hrr : (cs.dropWhile isWS).reverse.dropWhile isWS with
  | nil => rfl
  | cons a rest =>
    have hfa : isWS a = false := dropWhile_head_false hrr
    exact List.dropWhile_cons_of_neg (by simp [hfa])

theorem trimChars_idem (cs : List Char) : trimChars (trimChars cs) = trimChars cs := by
  have hstep : trimChars (trimChars cs) =
      (((trimChars cs).dropWhile isWS).reverse.dropWhile isWS).reverse := rfl
  rw [hstep, trim_no_leading, trim_no_trailing, List.reverse_reverse]

theorem pyStrip_idem (s : String) : pyStrip (pyStrip s) = pyStrip s := by
  unfold pyStrip
  exact congrArg String.mk (trimChars_idem s.data)

/- The parser on a body of pure speaker lines. -/

theorem parse_pure_speaker_aux :
    ∀ (lines : List String) (specs : List (String × String)),
      lines.length = specs.length →
      (∀ q ∈ lines.zip specs,
          speakerMatch (pyStrip q.1) = some q.2 ∧ pyStrip q.2.2 ≠ "") →
      ∀ cur : Option (String × List String),
        parseTurnsAux lines cur =
          flushCur cur ++ specs.map (fun s => (pyStrip s.1, pyStrip s.2)) := by
  intro lines
  induction lines with
  | nil =>
    intro specs hlen _ cur
    have hs : specs = [] := List.eq_nil_of_length_eq_zero hlen.symm
    subst hs
    cases cur with
    | none => simp [parseTurnsAux, flushCur]
    | some nu =>
      obtain ⟨n, u⟩ := nu
      cases u with
      | nil => simp [parseTurnsAux, flushCur, emitTurn, joinUtt, joinSp, pyStrip, trimChars]
      | cons a u' => simp [parseTurnsAux, flushCur]
  | cons line rest ih =>
    intro specs hlen hpt cur
    cases specs with
    | nil => exact absurd hlen (by simp)
    | cons s specs' =>
      have h0 := hpt (line, s) (by simp)
      have hrest : ∀ q ∈ rest.zip specs',
          speakerMatch (pyStrip q.1) = some q.2 ∧ pyStrip q.2.2 ≠ "" := by
        intro q hq
        exact hpt q (by simp only [List.zip_cons_cons]; exact List.mem_cons_of_mem _ hq)
      have hlen' : rest.length = specs'.length := by simpa using hlen
      have hne : pyStrip line ≠ "" := by
        intro he
        have hsm : speakerMatch "" = none := rfl
        rw [he, hsm] at h0
        exact Option.noConfusion h0.1
      have hstep : parseTurnsAux (line :: rest) cur =
          flushCur cur ++ parseTurnsAux rest (some (pyStrip s.1, [pyStrip s.2])) := by
        simp only [parseTurnsAux, if_neg hne, h0.1]
        cases cur with
        | none => simp [flushCur]
        | some nu => obtain ⟨n, u⟩ := nu; simp [flushCur]
      rw [hstep, ih specs' hlen' hrest (some (pyStrip s.1, [pyStrip s.2]))]
      have hemit : flushCur (some (pyStrip s.1, [pyStrip s.2])) =
          [(pyStrip s.1, pyStrip s.2)] := by
        show emitTurn (pyStrip s.1) [pyStrip s.2] = [(pyStrip s.1, pyStrip s.2)]
        unfold emitTurn joinUtt joinSp
        rw [pyStrip_idem]
        rw [if_neg h0.2]
      rw [hemit]
      simp

/-- C9: a transcript body consisting purely of speaker-labeled lines, each
matching the name-colon pattern with a remainder that is nonblank after
stripping, parses to exactly one turn per line, in the original order, with
the stripped name and remainder of each line. -/
theorem C9_pure_speaker_lines (lines : List String) (specs : List (String × String))
    (hlen : lines.length = specs.length)
    (hpt : ∀ q ∈ lines.zip specs,
        speakerMatch (pyStrip q.1) = some q.2 ∧ pyStrip q.2.2 ≠ "") :
    parseTurns lines = specs.map (fun s => (pyStrip s.1, pyStrip s.2)) := by
  have h := parse_pure_speaker_aux lines specs hlen hpt none
  simpa [parseTurns, flushCur] using h

/-- C9 witness: two speaker lines parse to two turns in order. -/
theorem C9_witness :
    (["Alice: hi there", "Bob: yo"] : List String).length =
      ([("Alice", " hi there"), ("Bob", " yo")] : List (String × String)).length ∧
    parseTurns ["Alice: hi there", "Bob: yo"] =
      [("Alice", " hi there"), ("Bob", " yo")].map (fun s => (pyStrip s.1, pyStrip s.2)) :=
  ⟨by decide, C9_pure_speaker_lines _ _ (by decide) (by decide)⟩

end Claims

end MeetingAnalyser
